import Mathlib

set_option maxRecDepth 20000

/-!
Verification of the `suntime` terminal chart renderer (`src/plot.rs`).

The Rust source is shallowly embedded below.  Machine integers are modelled
as `Nat`/`Int`: Rust `u8`/`u32` casts are made explicit with `% 256` /
`% 2^32`, Rust `/` and `%` on `i64` are `Int.tdiv` / `Int.tmod`
(truncation toward zero, matching Rust semantics).  Fallible operations
(indexing that would panic, division by zero, `unwrap`) return `Option`,
with `none` marking a panic (or, for the vertical drawing loop on inputs
where the Rust loop never terminates, divergence).  The two `while` loops
of `plot_line` are embedded with an explicit fuel argument that is large
enough for every terminating run of the source loop.

`chrono` values are embedded by their observable content: a `NaiveTime`
is its number of nanoseconds since midnight, a `Duration` is a signed
nanosecond count; `Duration / i32` truncates toward zero at nanosecond
precision and `num_milliseconds` truncates toward zero, as in `chrono`.
The `f32` arithmetic of `plot_times` (`width as f32 / len as f32`,
`i as f32 * horiz_size`, `as i64`) is embedded exactly as IEEE-754
binary32 arithmetic in the normal range, represented by dyadic rationals
`m * 2^e` with round-to-nearest-even (no overflow or subnormal handling
is needed: every value arising here is mid-range).
-/

namespace Suntime

/-- `pattern_from_char` from src/plot.rs: decode a glyph to the internal
8-bit sub-pixel pattern.  The `u32` subtraction `ch as u32 - 0x2800` is
modelled with an explicit wrap-around `% 2^32`; the final `as u8` cast is
the `% 256`. -/
def pattern_from_char (ch : Char) : Nat :=
  if ch = ' ' then 0
  else
    let c := (ch.toNat + (2 ^ 32 - 0x2800)) % 2 ^ 32
    let rv := ((c &&& 0b00111000) <<< 1) ||| (c &&& 0b00000111)
    let rv := if c &&& 0x0040 > 0 then rv ||| 0b00001000 else rv
    let rv := if c &&& 0x0080 > 0 then rv ||| 0b10000000 else rv
    rv % 256

/-- `char_for_pattern` from src/plot.rs: encode an 8-bit sub-pixel pattern
as a glyph (space for 0, otherwise a Braille block character). -/
def char_for_pattern (pattern : Nat) : Char :=
  if pattern = 0 then ' '
  else
    let rv := ((pattern &&& 0b01110000) >>> 1) ||| (pattern &&& 0b00000111)
    let rv := rv + 0x2800
    let rv := if pattern &&& 0b00001000 > 0 then rv + 0x40 else rv
    let rv := if pattern &&& 0b10000000 > 0 then rv + 0x80 else rv
    Char.ofNat rv

/-- `plot_at` from src/plot.rs: merge a pattern into a cell by OR-ing it
with the cell's current decoded pattern. -/
def plot_at (pattern : Nat) (buf : Char) : Char :=
  char_for_pattern (pattern ||| pattern_from_char buf)

/-- The value of `pattern` in `pattern_for` before the three gap-filling
corrections (src/plot.rs lines 63-70). -/
def pattern_for_raw (f t : Int) : Nat :=
  let pattern := 1 <<< (3 - f.tmod 4).toNat
  if t.tdiv 4 = f.tdiv 4 then pattern ||| (1 <<< (3 - t.tmod 4).toNat)
  else if t < f then pattern ||| 0b1000
  else pattern ||| 0b0001

/-- `pattern_for` from src/plot.rs: the column mask for a cell entered at
sub-row `f` heading for sub-row `t`, with the three sequential gap-filling
corrections applied. -/
def pattern_for (f t : Int) : Nat :=
  let pattern := pattern_for_raw f t
  let pattern := if pattern = 0b101 then 0b111 else pattern
  let pattern := if pattern = 0b1010 then 0b1110 else pattern
  if pattern = 0b1001 then 0b1111 else pattern

/-- `y_at` from src/plot.rs: integer linear interpolation, with Rust's
truncating `i64` division. -/
def y_at (f t : Int × Int) (x : Int) : Int :=
  let dx := t.1 - f.1
  let dy := t.2 - f.2
  f.2 + Int.tdiv (dy * (x - f.1)) dx

/-- One buffer write of `plot_line` (src/plot.rs lines 110 and 125):
`plot_at(pattern, &mut buf[buf.len() - 1 - pt.1 as usize / 4][pt.0 as usize / 2])`.
A negative coordinate wraps to a huge `usize` and the row index underflows
below zero panic as well; every such out-of-bounds access is `none`. -/
def plot_at_idx (pattern : Nat) (pt : Int × Int) (buf : List (List Char)) :
    Option (List (List Char)) :=
  if pt.1 < 0 ∨ pt.2 < 0 then none
  else if (buf.length : Int) - 1 - pt.2.tdiv 4 < 0 then none
  else
    match buf[((buf.length : Int) - 1 - pt.2.tdiv 4).toNat]? with
    | none => none
    | some row =>
      match row[(pt.1.tdiv 2).toNat]? with
      | none => none
      | some ch =>
        some (buf.set ((buf.length : Int) - 1 - pt.2.tdiv 4).toNat
          (row.set (pt.1.tdiv 2).toNat (plot_at pattern ch)))

/-- The vertical-line `while` loop of `plot_line` (src/plot.rs lines 100-118),
with explicit fuel (`none` on exhaustion models the runs on which the Rust
loop panics only after the fuel bound, which never happens, or diverges).
Besides the buffer it returns the trace of merge calls made:
each entry is the sub-pixel point `pt` together with the (already
nibble-shifted) pattern merged there. -/
def plot_line_vert :
    Nat → Int × Int → Int × Int → Int → List (List Char) →
      List ((Int × Int) × Nat) → Option (List (List Char) × List ((Int × Int) × Nat))
  | 0, _, _, _, _, _ => none
  | fuel + 1, f, t, pt1, buf, acc =>
    if (f.2 < t.2 ∧ pt1 ≤ t.2) ∨ (f.2 > t.2 ∧ pt1 ≥ t.2) then
      let pattern := pattern_for pt1 t.2
      let pattern := if f.1.tmod 2 = 1 then pattern <<< 4 else pattern
      match plot_at_idx pattern (f.1, pt1) buf with
      | none => none
      | some buf' =>
        let pt1' := if t.2 > f.2 then pt1 - pt1.tmod 4 + 4 else pt1 + (3 - pt1.tmod 4) - 4
        plot_line_vert fuel f t pt1' buf' (acc ++ [((f.1, pt1), pattern)])
    else some (buf, acc)

/-- The non-vertical `while` loop of `plot_line` (src/plot.rs lines 121-130),
with explicit fuel and the same call trace as `plot_line_vert`. -/
def plot_line_walk :
    Nat → Int × Int → Int × Int → Int × Int → List (List Char) →
      List ((Int × Int) × Nat) → Option (List (List Char) × List ((Int × Int) × Nat))
  | 0, _, _, _, _, _ => none
  | fuel + 1, f, t, pt, buf, acc =>
    if pt.1 < t.1 then
      let pattern := pattern_for pt.2 (y_at f t (pt.1 + 1))
      let pattern := if pt.1.tmod 2 = 1 then pattern <<< 4 else pattern
      match plot_at_idx pattern pt buf with
      | none => none
      | some buf' =>
        plot_line_walk fuel f t (pt.1 + 1, y_at f t (pt.1 + 1)) buf' (acc ++ [(pt, pattern)])
    else some (buf, acc)

/-- Fuel that dominates the number of iterations of every terminating run
of either `plot_line` loop. -/
def line_fuel (f t : Int × Int) : Nat := (t.2 - f.2).natAbs + (t.1 - f.1).natAbs + 8

/-- `plot_line` from src/plot.rs.  Returns the updated buffer together with
the trace of merge calls. -/
def plot_line (f t : Int × Int) (buf : List (List Char)) :
    Option (List (List Char) × List ((Int × Int) × Nat)) :=
  if f.1 = t.1 then plot_line_vert (line_fuel f t) f t f.2 buf []
  else plot_line_walk (line_fuel f t) f t f buf []

/-! ### Exact model of the `f32` arithmetic in `plot_times`

A nonzero binary32 value is represented as a dyadic rational `(m, e)`
standing for `m * 2^e`; rounding is round-to-nearest, ties-to-even, as in
IEEE-754.  All values arising in `plot_times` are in the normal range and
far from overflow, so exponent-range clamping is not modelled. -/

/-- `⌊log₂ n⌋` (0 for `n = 0`), by structural recursion on a fuel bound. -/
def ilog2F : Nat → Nat → Nat
  | 0, _ => 0
  | fuel + 1, n => if n ≤ 1 then 0 else 1 + ilog2F fuel (n / 2)

def nat_log2 (n : Nat) : Nat := ilog2F n n

/-- Round `a / b` (`b > 0`, `a ≥ 0`) to the nearest integer, ties to even. -/
def rhe_div (a b : Int) : Int :=
  let q := a.tdiv b
  let r := a.tmod b
  if 2 * r < b then q else if b < 2 * r then q + 1 else if q.tmod 2 = 0 then q else q + 1

/-- Decides `2^e ≤ a / b` for naturals `a b > 0`. -/
def pow2_le_ratio (a b : Nat) (e : Int) : Bool :=
  if 0 ≤ e then decide (b * 2 ^ e.toNat ≤ a) else decide (b ≤ a * 2 ^ (-e).toNat)

/-- Binary32 value of `(a as f32) / (b as f32)` for naturals `a`, `b`
below `2^24` (so that the operand casts are exact), as a dyadic pair.
For `a = 0` the result is zero; `b = 0` (never reached here) yields the
junk value 0 rather than an infinity. -/
def f32_div (a b : Nat) : Int × Int :=
  if a = 0 ∨ b = 0 then (0, 0)
  else
    let guess : Int := (nat_log2 a : Int) - (nat_log2 b : Int)
    let e := if pow2_le_ratio a b (guess + 1) then guess + 1
             else if pow2_le_ratio a b guess then guess else guess - 1
    let m := if 0 ≤ 23 - e then rhe_div (a * 2 ^ (23 - e).toNat) b
             else rhe_div a (b * 2 ^ (e - 23).toNat)
    (m, e - 23)

/-- Binary32 value of `(i as f32) * x` for a natural `i` below `2^24` and a
nonnegative binary32 value `x`, as a dyadic pair. -/
def f32_mul_nat (i : Nat) (x : Int × Int) : Int × Int :=
  let p := (i : Int) * x.1
  if p = 0 then (0, 0)
  else
    let g : Int := (nat_log2 p.natAbs : Int) + x.2
    let s := x.2 - g + 23
    let m := if 0 ≤ s then p * 2 ^ s.toNat else rhe_div p (2 ^ (-s).toNat)
    (m, g - 23)

/-- The `as i64` cast of a binary32 value: truncation toward zero. -/
def f32_trunc (x : Int × Int) : Int :=
  if 0 ≤ x.2 then x.1 * 2 ^ x.2.toNat else x.1.tdiv (2 ^ (-x.2).toNat)

/-! ### `plot_times` (src/plot.rs lines 133-161)

`chrono` values are embedded by their observable content: a time of day is
its nanoseconds since midnight (`Int`), a `Duration` a signed nanosecond
count.  `Duration / i32` truncates toward zero, as does
`Duration::num_milliseconds`. -/

def num_milliseconds (d : Int) : Int := d.tdiv 1000000

/-- `slice::windows(2)` on a list. -/
def windows2 : List Int → List (Int × Int)
  | a :: b :: rest => (a, b) :: windows2 (b :: rest)
  | _ => []

/-- The list of `(from, to)` endpoint pairs that `plot_times` passes to
`plot_line` (src/plot.rs lines 141-147), or `none` where the source
panics: an empty sample list (`.min().unwrap()`), `height = 0`
(`Duration / 0`), or `pt_height` truncating to zero milliseconds
(`i64` division by zero inside the loop). -/
def plot_times_segments (width height : Nat) (times : List Int) :
    Option (List ((Int × Int) × (Int × Int))) :=
  match times with
  | [] => none
  | t0 :: rest =>
    if height = 0 then none
    else
      let mn := rest.foldl Min.min t0
      let duration := (rest.foldl Max.max t0) - mn
      let row_height := duration.tdiv (height : Int)
      let pt_height := row_height.tdiv 4
      let horiz_size := f32_div width (t0 :: rest).length
      (windows2 (t0 :: rest)).enum.mapM fun iw =>
        if num_milliseconds pt_height = 0 then none
        else
          let y1 := (num_milliseconds (iw.2.1 - mn)).tdiv (num_milliseconds pt_height)
          let y2 := (num_milliseconds (iw.2.2 - mn)).tdiv (num_milliseconds pt_height)
          some ((f32_trunc (f32_mul_nat iw.1 horiz_size) * 2, y1),
                (f32_trunc (f32_mul_nat (iw.1 + 1) horiz_size) * 2, y2))

/-- Two-digit zero-padded decimal, as in `chrono`'s `%H`/`%M`/`%S`. -/
def pad2 (n : Nat) : List Char := [Char.ofNat (48 + n / 10), Char.ofNat (48 + n % 10)]

/-- `format("%H:%M:%S")` of a time of day given in nanoseconds. -/
def format_time (ns : Int) : List Char :=
  let s := (ns.tdiv 1000000000).toNat
  pad2 (s / 3600) ++ ':' :: pad2 (s % 3600 / 60) ++ ':' :: pad2 (s % 60)

/-- The `{:>10}` format specifier: right-justify in a 10-character field. -/
def pad_left_10 (s : List Char) : List Char := List.replicate (10 - s.length) ' ' ++ s

/-- `plot_times` from src/plot.rs.  The printed lines are returned as lists
of characters (without the trailing newline); `none` models a panic. -/
def plot_times (label : String) (width height : Nat) (times : List Int) :
    Option (List (List Char)) :=
  match times with
  | [] => none
  | t0 :: rest =>
    let mn := rest.foldl Min.min t0
    let mx := rest.foldl Max.max t0
    match plot_times_segments width height (t0 :: rest) with
    | none => none
    | some segs =>
      match segs.foldlM (fun buf s => (plot_line s.1 s.2 buf).map Prod.fst)
          (List.replicate (height + 1) (List.replicate width ' ')) with
      | none => none
      | some buf =>
        some (buf.enum.map fun ir =>
          let tag := if ir.1 = 1 then format_time mx
                     else if ir.1 = height then format_time mn
                     else if ir.1 = height / 2 then label.toList
                     else []
          pad_left_10 tag ++ ' ' :: ir.2)

end Suntime

namespace Suntime

-- sanity instances of the source's own unit tests
example : pattern_for 0 0 = 0b1000 := by decide
example : pattern_for 3 3 = 0b0001 := by decide
example : pattern_for 0 2 = 0b1110 := by decide
example : pattern_for 1 5 = 0b0111 := by decide
example : pattern_for 0 5 = 0b1111 := by decide
example : pattern_for 5 1 = 0b1100 := by decide
example : y_at (0, 10) (10, 0) 5 = 5 := by decide
example : y_at (102, 15) (136, 20) 120 = 17 := by decide

/-- Codec round-trip, as a reusable lemma. -/
theorem pattern_from_char_char_for_pattern :
    ∀ p : Nat, p < 256 → pattern_from_char (char_for_pattern p) = p := by decide

theorem lor_lt_256 {p q : Nat} (hp : p < 256) (hq : q < 256) : p ||| q < 256 :=
  Nat.bitwise_lt_two_pow (n := 8) hp hq

theorem pattern_from_char_lt_256 (ch : Char) : pattern_from_char ch < 256 := by
  rw [pattern_from_char]
  split
  · decide
  · exact Nat.mod_lt _ (by decide)

theorem plot_at_decode (p : Nat) (hp : p < 256) (c : Char) :
    pattern_from_char (plot_at p c) = p ||| pattern_from_char c :=
  pattern_from_char_char_for_pattern _ (lor_lt_256 hp (pattern_from_char_lt_256 c))

theorem foldl_plot_at_char (l : List Nat) :
    ∀ q : Nat, q < 256 → (∀ p ∈ l, p < 256) →
      l.foldl (fun c p => plot_at p c) (char_for_pattern q) =
        char_for_pattern (l.foldr (· ||| ·) 0 ||| q) := by
  induction l with
  | nil => intro q _ _; simp
  | cons p l ih =>
    intro q hq hall
    have hp : p < 256 := hall p (by simp)
    simp only [List.foldl_cons, List.foldr_cons]
    rw [show plot_at p (char_for_pattern q) = char_for_pattern (p ||| q) by
        unfold plot_at; rw [pattern_from_char_char_for_pattern q hq]]
    rw [ih (p ||| q) (lor_lt_256 hp hq) fun x hx => hall x (by simp [hx])]
    rw [← Nat.lor_assoc, Nat.lor_comm (l.foldr (· ||| ·) 0) p]

theorem foldr_lor_lt_256 (l : List Nat) (h : ∀ p ∈ l, p < 256) :
    l.foldr (· ||| ·) 0 < 256 := by
  induction l with
  | nil => decide
  | cons p l ih => exact lor_lt_256 (h p (by simp)) (ih fun x hx => h x (by simp [hx]))

theorem perm_foldr_lor {l l' : List Nat} (h : l.Perm l') :
    l.foldr (· ||| ·) 0 = l'.foldr (· ||| ·) 0 := by
  induction h with
  | nil => rfl
  | cons x _ ih => simp only [List.foldr_cons, ih]
  | swap x y l => simp only [List.foldr_cons, ← Nat.lor_assoc, Nat.lor_comm x y]
  | trans _ _ ih1 ih2 => exact ih1.trans ih2

theorem foldl_plot_at_space (l : List Nat) (h : ∀ p ∈ l, p < 256) :
    l.foldl (fun c p => plot_at p c) ' ' = char_for_pattern (l.foldr (· ||| ·) 0) := by
  rw [show (' ' : Char) = char_for_pattern 0 from rfl,
    foldl_plot_at_char l 0 (by decide) h, Nat.or_zero]

end Suntime

namespace Suntime

/-- C1: Codec round-trip: for every 8-bit pattern `p` in `0..=255`,
`pattern_from_char (char_for_pattern p) = p`, including the special case
pattern `0` ↔ space. -/
theorem codec_round_trip (p : Nat) (hp : p < 256) :
    pattern_from_char (char_for_pattern p) = p :=
  pattern_from_char_char_for_pattern p hp

theorem codec_round_trip_witness :
    170 < 256 ∧ pattern_from_char (char_for_pattern 170) = 170 ∧
      char_for_pattern 0 = ' ' ∧ pattern_from_char (char_for_pattern 0) = 0 :=
  ⟨by decide, codec_round_trip 170 (by decide), by decide, codec_round_trip 0 (by decide)⟩

/-- C2: merging any finite sequence of 8-bit patterns into one cell
(starting from space) via `plot_at` yields a cell whose decoded pattern is
the bitwise OR of all the patterns, and the result is independent of the
order of merging. -/
theorem merge_is_lor (l : List Nat) (h : ∀ p ∈ l, p < 256) :
    pattern_from_char (l.foldl (fun c p => plot_at p c) ' ') = l.foldr (· ||| ·) 0 ∧
    ∀ l' : List Nat, l.Perm l' →
      l'.foldl (fun c p => plot_at p c) ' ' = l.foldl (fun c p => plot_at p c) ' ' := by
  constructor
  · rw [foldl_plot_at_space l h]
    exact pattern_from_char_char_for_pattern _ (foldr_lor_lt_256 l h)
  · intro l' hperm
    rw [foldl_plot_at_space l h,
      foldl_plot_at_space l' (fun p hp => h p (hperm.mem_iff.mpr hp)),
      perm_foldr_lor hperm]

theorem merge_is_lor_witness :
    (∀ p ∈ [9, 240, 9], p < 256) ∧
      pattern_from_char ([9, 240, 9].foldl (fun c p => plot_at p c) ' ') =
        [9, 240, 9].foldr (· ||| ·) 0 ∧
      [240, 9, 9].foldl (fun c p => plot_at p c) ' ' =
        [9, 240, 9].foldl (fun c p => plot_at p c) ' ' :=
  ⟨by decide, (merge_is_lor [9, 240, 9] (by decide)).1,
    (merge_is_lor [9, 240, 9] (by decide)).2 [240, 9, 9] (by decide)⟩

/-- C3: for every pair of integer endpoint rows, `pattern_for` never
returns one of the raw gapped masks `0b0101`, `0b1010`, `0b1001`; and
whenever the uncorrected mask is one of those, it returns the filled mask
`0b0111`, `0b1110`, `0b1111` respectively. -/
theorem pattern_for_gap_filled (f t : Int) :
    (pattern_for f t ≠ 0b0101 ∧ pattern_for f t ≠ 0b1010 ∧ pattern_for f t ≠ 0b1001) ∧
    (pattern_for_raw f t = 0b0101 → pattern_for f t = 0b0111) ∧
    (pattern_for_raw f t = 0b1010 → pattern_for f t = 0b1110) ∧
    (pattern_for_raw f t = 0b1001 → pattern_for f t = 0b1111) := by
  unfold pattern_for
  generalize pattern_for_raw f t = p
  by_cases h5 : p = 5 <;> by_cases h10 : p = 10 <;> by_cases h9 : p = 9 <;>
    simp [h5, h10, h9]

theorem pattern_for_gap_filled_witness :
    (pattern_for_raw 1 5 = 5 ∧ pattern_for 1 5 = 7) ∧
      (pattern_for_raw 2 0 = 10 ∧ pattern_for 2 0 = 14) ∧
      (pattern_for_raw 0 3 = 9 ∧ pattern_for 0 3 = 15) :=
  ⟨⟨by decide, (pattern_for_gap_filled 1 5).2.1 (by decide)⟩,
    ⟨by decide, (pattern_for_gap_filled 2 0).2.2.1 (by decide)⟩,
    ⟨by decide, (pattern_for_gap_filled 0 3).2.2.2 (by decide)⟩⟩

/-- C9: for `f.1 < t.1`, the integer interpolation `y_at` is exact at both
endpoints: it returns `f.2` at `f.1` and `t.2` at `t.1`, with no
truncation error. -/
theorem y_at_endpoints (f t : Int × Int) (h : f.1 < t.1) :
    y_at f t f.1 = f.2 ∧ y_at f t t.1 = t.2 := by
  unfold y_at
  refine ⟨by simp, ?_⟩
  show f.2 + ((t.2 - f.2) * (t.1 - f.1)).tdiv (t.1 - f.1) = t.2
  rw [Int.mul_tdiv_cancel _ (by omega : t.1 - f.1 ≠ 0)]
  omega

theorem y_at_endpoints_witness :
    ((102 : Int), (15 : Int)).1 < ((136 : Int), (20 : Int)).1 ∧
      y_at (102, 15) (136, 20) 102 = 15 ∧ y_at (102, 15) (136, 20) 136 = 20 :=
  ⟨by decide, (y_at_endpoints (102, 15) (136, 20) (by decide)).1,
    (y_at_endpoints (102, 15) (136, 20) (by decide)).2⟩

end Suntime

namespace Suntime

/-- C10: degenerate and backward segments are silent no-ops: `plot_line`
with `f = t`, or with `f.1 ≠ t.1` and `t.1 < f.1`, returns the buffer
unchanged, draws nothing and raises no error. -/
theorem plot_line_degenerate (f t : Int × Int) (buf : List (List Char)) :
    (f = t → plot_line f t buf = some (buf, [])) ∧
    (f.1 ≠ t.1 → t.1 < f.1 → plot_line f t buf = some (buf, [])) := by
  constructor
  · rintro rfl
    rw [plot_line, if_pos rfl,
      show line_fuel f f = 7 + 1 by simp [line_fuel],
      plot_line_vert, if_neg (by omega)]
  · intro hne hlt
    rw [plot_line, if_neg hne,
      show line_fuel f t = ((t.2 - f.2).natAbs + (t.1 - f.1).natAbs + 7) + 1 by
        simp [line_fuel],
      plot_line_walk, if_neg (by omega)]

theorem plot_line_degenerate_witness :
    plot_line (5, 2) (5, 2) [['a', 'b']] = some ([['a', 'b']], []) ∧
      plot_line (4, 0) (1, 3) [['c']] = some ([['c']], []) :=
  ⟨(plot_line_degenerate (5, 2) (5, 2) [['a', 'b']]).1 rfl,
    (plot_line_degenerate (4, 0) (1, 3) [['c']]).2 (by decide) (by decide)⟩

end Suntime

namespace Suntime

/-- C5: the claim asserts that a degenerate value range (all samples equal,
as in `plot_times "X" 10 4` on two copies of 12:00:00) is handled without
dividing by zero.  The code violates this: `pt_height` is the zero
duration, and `(t - min).num_milliseconds() / pt_height.num_milliseconds()`
is an `i64` division by zero, which panics (modelled as `none`). -/
theorem plot_times_degenerate_range :
    plot_times "X" 10 4 [43200000000000, 43200000000000] = none := by rfl

/-- C6: the claim asserts that fewer than 2 samples are rejected with a
descriptive error.  The code violates this: an empty sample list panics on
`.min().unwrap()` (modelled as `none`), and a single-element list is
silently accepted and rendered (`windows(2)` yields nothing, so the
division by the zero `pt_height` is never reached). -/
theorem plot_times_too_few_samples :
    plot_times "X" 10 4 [] = none ∧
      (plot_times "X" 10 4 [43200000000000]).isSome = true := by
  exact ⟨rfl, rfl⟩

end Suntime

namespace Suntime

/-- C4: end-to-end scenario: `plot_times "Sunsets" 10 4` on the samples
18:00:00, 18:10:00, 17:50:00 (nanoseconds since midnight) succeeds and
produces exactly 5 lines of exactly 21 characters; the 10-character label
field of line 1 holds "18:10:00" (the max), of line 4 "17:50:00" (the
min), of line 2 "Sunsets"; every grid character is a space or a Braille
block character in U+2800..U+28FF. -/
theorem plot_times_scenario :
    (plot_times "Sunsets" 10 4 [64800000000000, 65400000000000, 64200000000000]).isSome
        = true ∧
    ((plot_times "Sunsets" 10 4 [64800000000000, 65400000000000, 64200000000000]).getD
        []).length = 5 ∧
    (∀ l ∈ (plot_times "Sunsets" 10 4
        [64800000000000, 65400000000000, 64200000000000]).getD [], l.length = 21) ∧
    (((plot_times "Sunsets" 10 4 [64800000000000, 65400000000000, 64200000000000]).getD
        []).getD 1 []).take 10 = "  18:10:00".toList ∧
    (((plot_times "Sunsets" 10 4 [64800000000000, 65400000000000, 64200000000000]).getD
        []).getD 4 []).take 10 = "  17:50:00".toList ∧
    (((plot_times "Sunsets" 10 4 [64800000000000, 65400000000000, 64200000000000]).getD
        []).getD 2 []).take 10 = "   Sunsets".toList ∧
    (∀ l ∈ (plot_times "Sunsets" 10 4
        [64800000000000, 65400000000000, 64200000000000]).getD [],
      ∀ c ∈ l.drop 11, c = ' ' ∨ (0x2800 ≤ c.toNat ∧ c.toNat ≤ 0x28FF)) := by
  decide

end Suntime

namespace Suntime

theorem lor_and_self (a b : Nat) : (a ||| b) &&& a = a := by
  apply Nat.eq_of_testBit_eq
  intro i
  rw [Nat.testBit_land, Nat.testBit_lor]
  cases a.testBit i <;> cases b.testBit i <;> rfl

theorem tdiv_le_of_le_mul {a b d : Int} (hd : 0 < d) (ha : 0 ≤ a) (h : a ≤ b * d) :
    a.tdiv d ≤ b := by
  rw [Int.tdiv_eq_ediv ha (by omega)]
  calc a / d ≤ b * d / d := Int.ediv_le_ediv hd h
  _ = b := Int.mul_ediv_cancel b (by omega)

/-- Inside the non-vertical walk, every interpolated `y` stays inside any
box containing both endpoint `y`s. -/
theorem y_at_in_box (f t : Int × Int) (x B : Int) (hdx : f.1 < t.1)
    (hx1 : f.1 ≤ x) (hx2 : x ≤ t.1)
    (hf0 : 0 ≤ f.2) (hfB : f.2 ≤ B) (ht0 : 0 ≤ t.2) (htB : t.2 ≤ B) :
    0 ≤ y_at f t x ∧ y_at f t x ≤ B := by
  unfold y_at
  show 0 ≤ f.2 + ((t.2 - f.2) * (x - f.1)).tdiv (t.1 - f.1) ∧
    f.2 + ((t.2 - f.2) * (x - f.1)).tdiv (t.1 - f.1) ≤ B
  have h1 : 0 < t.1 - f.1 := by omega
  have h2 : 0 ≤ x - f.1 := by omega
  have h3 : x - f.1 ≤ t.1 - f.1 := by omega
  rcases le_or_lt f.2 t.2 with hdy | hdy
  · have hnn : 0 ≤ (t.2 - f.2) * (x - f.1) := mul_nonneg (by omega) h2
    have ha : 0 ≤ ((t.2 - f.2) * (x - f.1)).tdiv (t.1 - f.1) := Int.tdiv_nonneg hnn (by omega)
    have hb : ((t.2 - f.2) * (x - f.1)).tdiv (t.1 - f.1) ≤ t.2 - f.2 :=
      tdiv_le_of_le_mul h1 hnn (mul_le_mul_of_nonneg_left h3 (by omega))
    omega
  · have hnn : 0 ≤ (f.2 - t.2) * (x - f.1) := mul_nonneg (by omega) h2
    have hneg : ((t.2 - f.2) * (x - f.1)).tdiv (t.1 - f.1) =
        -(((f.2 - t.2) * (x - f.1)).tdiv (t.1 - f.1)) := by
      rw [show (t.2 - f.2) * (x - f.1) = -((f.2 - t.2) * (x - f.1)) by ring, Int.neg_tdiv]
    have ha : 0 ≤ ((f.2 - t.2) * (x - f.1)).tdiv (t.1 - f.1) := Int.tdiv_nonneg hnn (by omega)
    have hb : ((f.2 - t.2) * (x - f.1)).tdiv (t.1 - f.1) ≤ f.2 - t.2 :=
      tdiv_le_of_le_mul h1 hnn (mul_le_mul_of_nonneg_left h3 (by omega))
    omega

/-- An in-bounds merge into the buffer succeeds and preserves the buffer's
shape. -/
theorem plot_at_idx_some (pattern : Nat) (pt : Int × Int) (buf : List (List Char)) (w : Nat)
    (hrows : ∀ row ∈ buf, row.length = w)
    (hx0 : 0 ≤ pt.1) (hx1 : pt.1 ≤ 2 * (w : Int) - 1)
    (hy0 : 0 ≤ pt.2) (hy1 : pt.2 ≤ 4 * (buf.length : Int) - 1) :
    ∃ buf', plot_at_idx pattern pt buf = some buf' ∧
      buf'.length = buf.length ∧ ∀ row ∈ buf', row.length = w := by
  have hd4 : pt.2.tdiv 4 = pt.2 / 4 := Int.tdiv_eq_ediv hy0 (by norm_num)
  have hd2 : pt.1.tdiv 2 = pt.1 / 2 := Int.tdiv_eq_ediv hx0 (by norm_num)
  unfold plot_at_idx
  rw [if_neg (by omega), if_neg (by rw [hd4]; omega)]
  have hrlt : ((buf.length : Int) - 1 - pt.2.tdiv 4).toNat < buf.length := by
    rw [hd4]; omega
  have hcol : (pt.1.tdiv 2).toNat < buf[((buf.length : Int) - 1 - pt.2.tdiv 4).toNat].length := by
    rw [hrows _ (List.getElem_mem hrlt), hd2]; omega
  simp only [List.getElem?_eq_getElem hrlt, List.getElem?_eq_getElem hcol]
  refine ⟨_, rfl, by rw [List.length_set], fun row hrow => ?_⟩
  rcases List.mem_or_eq_of_mem_set hrow with hmem | heq
  · exact hrows _ hmem
  · rw [heq, List.length_set]
    exact hrows _ (List.getElem_mem hrlt)

end Suntime

namespace Suntime

/-- The non-vertical walk, run from any in-bounds state with enough fuel,
succeeds, preserves the buffer shape, and only merges at in-bounds
points. -/
theorem plot_line_walk_bounds (w : Nat) (f t : Int × Int)
    (hdx : f.1 < t.1) (hfx : 0 ≤ f.1) (htx : t.1 ≤ 2 * (w : Int) - 1)
    (hfy0 : 0 ≤ f.2) (hty0 : 0 ≤ t.2) :
    ∀ (fuel : Nat) (x y : Int) (buf : List (List Char)) (acc : List ((Int × Int) × Nat)),
      f.2 ≤ 4 * (buf.length : Int) - 1 → t.2 ≤ 4 * (buf.length : Int) - 1 →
      (∀ row ∈ buf, row.length = w) →
      f.1 ≤ x → x ≤ t.1 → 0 ≤ y → y ≤ 4 * (buf.length : Int) - 1 →
      (t.1 - x).toNat + 2 ≤ fuel →
      ∃ buf' calls, plot_line_walk fuel f t (x, y) buf acc = some (buf', acc ++ calls) ∧
        buf'.length = buf.length ∧ (∀ row ∈ buf', row.length = w) ∧
        ∀ c ∈ calls, 0 ≤ c.1.1 ∧ c.1.1 ≤ 2 * (w : Int) - 1 ∧
          0 ≤ c.1.2 ∧ c.1.2 ≤ 4 * (buf.length : Int) - 1 := by
  intro fuel
  induction fuel with
  | zero => intro x y buf acc _ _ _ _ _ _ _ hfuel; omega
  | succ n ih =>
    intro x y buf acc hfyB htyB hrows hx1 hx2 hy0 hyB hfuel
    by_cases hguard : x < t.1
    · obtain ⟨hy1, hy2⟩ :=
        y_at_in_box f t (x + 1) (4 * (buf.length : Int) - 1) hdx (by omega) (by omega)
          hfy0 hfyB hty0 htyB
      obtain ⟨buf1, haidx, hlen1, hrows1⟩ :=
        plot_at_idx_some
          (if x.tmod 2 = 1 then pattern_for y (y_at f t (x + 1)) <<< 4
            else pattern_for y (y_at f t (x + 1)))
          (x, y) buf w hrows (show (0:Int) ≤ x by omega)
          (show x ≤ 2 * (w : Int) - 1 by omega) (show (0:Int) ≤ y by omega)
          (show y ≤ 4 * (buf.length : Int) - 1 by omega)
      obtain ⟨buf', calls, hrun, hlen', hrows', hcalls⟩ :=
        ih (x + 1) (y_at f t (x + 1)) buf1
          (acc ++ [((x, y), if x.tmod 2 = 1 then pattern_for y (y_at f t (x + 1)) <<< 4
            else pattern_for y (y_at f t (x + 1)))])
          (by rw [hlen1]; omega) (by rw [hlen1]; omega) hrows1
          (by omega) (by omega) hy1 (by rw [hlen1]; omega) (by omega)
      refine ⟨buf', ((x, y), if x.tmod 2 = 1 then pattern_for y (y_at f t (x + 1)) <<< 4
          else pattern_for y (y_at f t (x + 1))) :: calls, ?_, by omega, hrows', ?_⟩
      · simp only [plot_line_walk]
        rw [if_pos hguard]
        simp only [haidx]
        rw [hrun, List.append_assoc]
        rfl
      · intro c hc
        rcases List.mem_cons.mp hc with hc | hc
        · subst hc
          refine ⟨show (0:Int) ≤ x by omega, show x ≤ 2 * (w : Int) - 1 by omega,
            show (0:Int) ≤ y by omega, show y ≤ 4 * (buf.length : Int) - 1 by omega⟩
        · have hcb := hcalls c hc
          rw [hlen1] at hcb
          exact hcb
    · refine ⟨buf, [], ?_, rfl, hrows, by simp⟩
      simp only [plot_line_walk]
      rw [if_neg hguard, List.append_nil]

end Suntime

namespace Suntime

/-- The upward vertical walk, run from any in-bounds state with enough
fuel, succeeds, preserves the buffer shape, and only merges at in-bounds
points. -/
theorem plot_line_vert_up_bounds (w : Nat) (f t : Int × Int)
    (hdir : f.2 < t.2) (hfx : 0 ≤ f.1) (hfx2 : f.1 ≤ 2 * (w : Int) - 1) :
    ∀ (fuel : Nat) (pt1 : Int) (buf : List (List Char)) (acc : List ((Int × Int) × Nat)),
      t.2 ≤ 4 * (buf.length : Int) - 1 →
      (∀ row ∈ buf, row.length = w) →
      0 ≤ pt1 →
      (t.2 + 4 - pt1).toNat + 1 ≤ fuel →
      ∃ buf' calls, plot_line_vert fuel f t pt1 buf acc = some (buf', acc ++ calls) ∧
        buf'.length = buf.length ∧ (∀ row ∈ buf', row.length = w) ∧
        ∀ c ∈ calls, 0 ≤ c.1.1 ∧ c.1.1 ≤ 2 * (w : Int) - 1 ∧
          0 ≤ c.1.2 ∧ c.1.2 ≤ 4 * (buf.length : Int) - 1 := by
  intro fuel
  induction fuel with
  | zero => intro pt1 buf acc _ _ _ hfuel; omega
  | succ n ih =>
    intro pt1 buf acc htB hrows hp0 hfuel
    have hm : pt1.tmod 4 = pt1 % 4 := Int.tmod_eq_emod hp0 (by norm_num)
    by_cases hle : pt1 ≤ t.2
    · obtain ⟨buf1, haidx, hlen1, hrows1⟩ :=
        plot_at_idx_some
          (if f.1.tmod 2 = 1 then pattern_for pt1 t.2 <<< 4 else pattern_for pt1 t.2)
          (f.1, pt1) buf w hrows (show (0:Int) ≤ f.1 by omega)
          (show f.1 ≤ 2 * (w : Int) - 1 by omega) (show (0:Int) ≤ pt1 by omega)
          (show pt1 ≤ 4 * (buf.length : Int) - 1 by omega)
      obtain ⟨buf', calls, hrun, hlen', hrows', hcalls⟩ :=
        ih (pt1 - pt1.tmod 4 + 4) buf1
          (acc ++ [((f.1, pt1),
            if f.1.tmod 2 = 1 then pattern_for pt1 t.2 <<< 4 else pattern_for pt1 t.2)])
          (by rw [hlen1]; omega) hrows1 (by omega) (by omega)
      refine ⟨buf', ((f.1, pt1),
          if f.1.tmod 2 = 1 then pattern_for pt1 t.2 <<< 4 else pattern_for pt1 t.2) :: calls,
          ?_, by omega, hrows', ?_⟩
      · simp only [plot_line_vert]
        rw [if_pos (Or.inl ⟨hdir, hle⟩)]
        simp only [haidx]
        rw [if_pos (show t.2 > f.2 from hdir), hrun, List.append_assoc]
        rfl
      · intro c hc
        rcases List.mem_cons.mp hc with hc | hc
        · subst hc
          refine ⟨show (0:Int) ≤ f.1 by omega, show f.1 ≤ 2 * (w : Int) - 1 by omega,
            show (0:Int) ≤ pt1 by omega, show pt1 ≤ 4 * (buf.length : Int) - 1 by omega⟩
        · have hcb := hcalls c hc
          rw [hlen1] at hcb
          exact hcb
    · refine ⟨buf, [], ?_, rfl, hrows, by simp⟩
      simp only [plot_line_vert]
      rw [if_neg (by omega), List.append_nil]

/-- The downward vertical walk, run from any in-bounds state with enough
fuel, succeeds, preserves the buffer shape, and only merges at in-bounds
points. -/
theorem plot_line_vert_down_bounds (w : Nat) (f t : Int × Int)
    (hdir : t.2 < f.2) (hfx : 0 ≤ f.1) (hfx2 : f.1 ≤ 2 * (w : Int) - 1) (ht0 : 0 ≤ t.2) :
    ∀ (fuel : Nat) (pt1 : Int) (buf : List (List Char)) (acc : List ((Int × Int) × Nat)),
      f.2 ≤ 4 * (buf.length : Int) - 1 →
      (∀ row ∈ buf, row.length = w) →
      pt1 ≤ f.2 →
      (pt1 + 4 - t.2).toNat + 1 ≤ fuel →
      ∃ buf' calls, plot_line_vert fuel f t pt1 buf acc = some (buf', acc ++ calls) ∧
        buf'.length = buf.length ∧ (∀ row ∈ buf', row.length = w) ∧
        ∀ c ∈ calls, 0 ≤ c.1.1 ∧ c.1.1 ≤ 2 * (w : Int) - 1 ∧
          0 ≤ c.1.2 ∧ c.1.2 ≤ 4 * (buf.length : Int) - 1 := by
  intro fuel
  induction fuel with
  | zero => intro pt1 buf acc _ _ _ hfuel; omega
  | succ n ih =>
    intro pt1 buf acc hfB hrows hpf hfuel
    by_cases hle : t.2 ≤ pt1
    · have hm : pt1.tmod 4 = pt1 % 4 := Int.tmod_eq_emod (by omega) (by norm_num)
      obtain ⟨buf1, haidx, hlen1, hrows1⟩ :=
        plot_at_idx_some
          (if f.1.tmod 2 = 1 then pattern_for pt1 t.2 <<< 4 else pattern_for pt1 t.2)
          (f.1, pt1) buf w hrows (show (0:Int) ≤ f.1 by omega)
          (show f.1 ≤ 2 * (w : Int) - 1 by omega) (show (0:Int) ≤ pt1 by omega)
          (show pt1 ≤ 4 * (buf.length : Int) - 1 by omega)
      obtain ⟨buf', calls, hrun, hlen', hrows', hcalls⟩ :=
        ih (pt1 + (3 - pt1.tmod 4) - 4) buf1
          (acc ++ [((f.1, pt1),
            if f.1.tmod 2 = 1 then pattern_for pt1 t.2 <<< 4 else pattern_for pt1 t.2)])
          (by rw [hlen1]; omega) hrows1 (by omega) (by omega)
      refine ⟨buf', ((f.1, pt1),
          if f.1.tmod 2 = 1 then pattern_for pt1 t.2 <<< 4 else pattern_for pt1 t.2) :: calls,
          ?_, by omega, hrows', ?_⟩
      · simp only [plot_line_vert]
        rw [if_pos (Or.inr ⟨hdir, hle⟩)]
        simp only [haidx]
        rw [if_neg (show ¬ t.2 > f.2 by omega), hrun, List.append_assoc]
        rfl
      · intro c hc
        rcases List.mem_cons.mp hc with hc | hc
        · subst hc
          refine ⟨show (0:Int) ≤ f.1 by omega, show f.1 ≤ 2 * (w : Int) - 1 by omega,
            show (0:Int) ≤ pt1 by omega, show pt1 ≤ 4 * (buf.length : Int) - 1 by omega⟩
        · have hcb := hcalls c hc
          rw [hlen1] at hcb
          exact hcb
    · refine ⟨buf, [], ?_, rfl, hrows, by simp⟩
      simp only [plot_line_vert]
      rw [if_neg (by omega), List.append_nil]

end Suntime

namespace Suntime

/-- Explicit form of an in-bounds merge. -/
theorem plot_at_idx_eq (pattern : Nat) (pt : Int × Int) (buf : List (List Char)) (w : Nat)
    (hrows : ∀ row ∈ buf, row.length = w)
    (hx0 : 0 ≤ pt.1) (hcol : (pt.1.tdiv 2).toNat < w)
    (hy0 : 0 ≤ pt.2) (hy1 : pt.2 ≤ 4 * (buf.length : Int) - 1) :
    plot_at_idx pattern pt buf =
      some (buf.set ((buf.length : Int) - 1 - pt.2.tdiv 4).toNat
        ((buf.getD ((buf.length : Int) - 1 - pt.2.tdiv 4).toNat []).set (pt.1.tdiv 2).toNat
          (plot_at pattern
            ((buf.getD ((buf.length : Int) - 1 - pt.2.tdiv 4).toNat []).getD
              (pt.1.tdiv 2).toNat ' ')))) := by
  have hd4 : pt.2.tdiv 4 = pt.2 / 4 := Int.tdiv_eq_ediv hy0 (by norm_num)
  unfold plot_at_idx
  rw [if_neg (by omega), if_neg (by rw [hd4]; omega)]
  have hrlt : ((buf.length : Int) - 1 - pt.2.tdiv 4).toNat < buf.length := by
    rw [hd4]; omega
  have hclt : (pt.1.tdiv 2).toNat < buf[((buf.length : Int) - 1 - pt.2.tdiv 4).toNat].length := by
    rw [hrows _ (List.getElem_mem hrlt)]; omega
  simp only [List.getElem?_eq_getElem hrlt, List.getElem?_eq_getElem hclt,
    List.getD_eq_getElem?_getD, List.getElem?_eq_getElem hrlt, Option.getD_some]

/-- On a character-row boundary `4k` heading for `4h - 1` (`k < h`), the
column pattern produced by `pattern_for` is always the full nibble `15`
(the raw value is the wrap-around diagonal `0b1001`, which gap-filling
turns into `0b1111`). -/
theorem pattern_for_aligned (k h : Nat) (hk : k < h) :
    pattern_for (4 * (k : Int)) (4 * (h : Int) - 1) = 15 := by
  have hfd : (4 * (k : Int)).tdiv 4 = k := by
    rw [Int.tdiv_eq_ediv (by positivity) (by norm_num)]; omega
  have hfm : (4 * (k : Int)).tmod 4 = 0 := by
    rw [Int.tmod_eq_emod (by positivity) (by norm_num)]; omega
  have htd : (4 * (h : Int) - 1).tdiv 4 = (h : Int) - 1 := by
    rw [Int.tdiv_eq_ediv (by omega) (by norm_num)]; omega
  have htm : (4 * (h : Int) - 1).tmod 4 = 3 := by
    rw [Int.tmod_eq_emod (by omega) (by norm_num)]; omega
  have hraw : pattern_for_raw (4 * (k : Int)) (4 * (h : Int) - 1) = 9 := by
    unfold pattern_for_raw
    rw [hfd, hfm, htd, htm]
    by_cases hsame : (h : Int) - 1 = (k : Int)
    · rw [if_pos hsame]
      decide
    · rw [if_neg hsame, if_neg (by omega : ¬ (4 * (h : Int) - 1 < 4 * (k : Int)))]
      decide
  unfold pattern_for
  rw [hraw]
  decide

end Suntime

namespace Suntime

/-- Exact run of the vertical loop upward from a character-row boundary
`4k` toward `4h - 1`: it makes exactly one full-nibble merge per character
row `k, k+1, ..., h-1`, touching no buffer row above the one for row `k`,
and afterwards the target sub-column's nibble is fully lit in every
character row it visited. -/
theorem plot_line_vert_aligned_trace (x : Int) (h w : Nat) (hx0 : 0 ≤ x) (hh : 1 ≤ h)
    (hcol : (x.tdiv 2).toNat < w) :
    ∀ (n k : Nat) (buf : List (List Char)) (acc : List ((Int × Int) × Nat)),
      k ≤ h → h ≤ buf.length → (∀ row ∈ buf, row.length = w) →
      h - k + 2 ≤ n →
      ∃ buf',
        plot_line_vert n (x, 0) (x, 4 * (h : Int) - 1) (4 * (k : Int)) buf acc =
          some (buf', acc ++ (List.range (h - k)).map (fun (j : Nat) =>
            ((x, 4 * (k : Int) + 4 * (j : Int)), if x.tmod 2 = 1 then 240 else 15))) ∧
        buf'.length = buf.length ∧ (∀ row ∈ buf', row.length = w) ∧
        (∀ i : Nat, buf.length ≤ i + k → buf'[i]? = buf[i]?) ∧
        (∀ j : Nat, k ≤ j → j < h →
          pattern_from_char ((buf'.getD (buf.length - 1 - j) []).getD (x.tdiv 2).toNat ' ')
              &&& (if x.tmod 2 = 1 then 240 else 15) = (if x.tmod 2 = 1 then 240 else 15)) := by
  intro n
  induction n with
  | zero => intro k buf acc _ _ _ hfuel; omega
  | succ n ih =>
    intro k buf acc hkh hhlen hrows hfuel
    rcases eq_or_lt_of_le hkh with hkeq | hklt
    · subst hkeq
      refine ⟨buf, ?_, rfl, hrows, fun i _ => rfl, fun j hj1 hj2 => by omega⟩
      simp only [plot_line_vert]
      rw [if_neg (by omega), Nat.sub_self, List.range_zero, List.map_nil,
        List.append_nil]
    · have hfd : (4 * (k : Int)).tdiv 4 = (k : Int) := by
        rw [Int.tdiv_eq_ediv (by positivity) (by norm_num)]; omega
      have hfm : (4 * (k : Int)).tmod 4 = 0 := by
        rw [Int.tmod_eq_emod (by positivity) (by norm_num)]; omega
      have hP256 : (if x.tmod 2 = 1 then (240 : Nat) else 15) < 256 := by split <;> norm_num
      have hPP : (if x.tmod 2 = 1 then (15 : Nat) <<< 4 else 15) =
          (if x.tmod 2 = 1 then (240 : Nat) else 15) := by split <;> rfl
      have hmerge := plot_at_idx_eq (if x.tmod 2 = 1 then (240 : Nat) else 15)
        (x, 4 * (k : Int)) buf w hrows (by exact hx0) hcol (by positivity)
        (by push_cast; omega)
      rw [show ((x, 4 * (k : Int)) : Int × Int).2.tdiv 4 = (k : Int) from hfd] at hmerge
      rw [show ((buf.length : Int) - 1 - (k : Int)).toNat = buf.length - 1 - k by omega]
        at hmerge
      set C := (x.tdiv 2).toNat with hC
      set vrow := buf.getD (buf.length - 1 - k) [] with hvrow
      have hvmem : vrow ∈ buf := by
        rw [hvrow, List.getD_eq_getElem?_getD,
          List.getElem?_eq_getElem (show buf.length - 1 - k < buf.length by omega),
          Option.getD_some]
        exact List.getElem_mem _
      have hvlen : vrow.length = w := hrows _ hvmem
      set cnew := plot_at (if x.tmod 2 = 1 then (240 : Nat) else 15) (vrow.getD C ' ')
        with hcnew
      set buf1 := buf.set (buf.length - 1 - k) (vrow.set C cnew) with hbuf1
      have hlen1 : buf1.length = buf.length := by rw [hbuf1, List.length_set]
      have hrows1 : ∀ row ∈ buf1, row.length = w := by
        intro row hrow
        rcases List.mem_or_eq_of_mem_set hrow with hmem | heq
        · exact hrows _ hmem
        · rw [heq, List.length_set, hvlen]
      obtain ⟨buf', ihrun, ihlen, ihrows, ihpres, ihcell⟩ :=
        ih (k + 1) buf1 (acc ++ [((x, 4 * (k : Int)),
          if x.tmod 2 = 1 then (240 : Nat) else 15)])
          (by omega) (by omega) hrows1 (by omega)
      have hstep : 4 * (k : Int) - (4 * (k : Int)).tmod 4 + 4 = 4 * ((k + 1 : Nat) : Int) := by
        rw [hfm]; push_cast; ring
      refine ⟨buf', ?_, by omega, ihrows, ?_, ?_⟩
      · simp only [plot_line_vert]
        rw [if_pos (Or.inl ⟨by omega, by omega⟩)]
        rw [show pattern_for (4 * (k : Int)) ((x, 4 * (h : Int) - 1) : Int × Int).2 = 15 from
          pattern_for_aligned k h hklt, hPP]
        simp only [hmerge]
        rw [if_pos (show ((x, 4 * (h : Int) - 1) : Int × Int).2 > ((x, 0) : Int × Int).2 by
          push_cast; omega)]
        rw [hstep, ihrun]
        congr 1
        congr 1
        rw [show h - k = (h - (k + 1)) + 1 by omega, List.range_succ_eq_map,
          List.map_cons, List.map_map,
          show (4 * (k : Int) + 4 * ((0 : Nat) : Int)) = 4 * (k : Int) by norm_num,
          List.append_assoc, List.singleton_append]
        congr 1
        congr 1
        apply List.map_congr_left
        intro a _
        show ((x, 4 * ((k + 1 : Nat) : Int) + 4 * (a : Int)),
            if x.tmod 2 = 1 then (240 : Nat) else 15) =
          ((x, 4 * (k : Int) + 4 * ((Nat.succ a : Nat) : Int)),
            if x.tmod 2 = 1 then (240 : Nat) else 15)
        rw [Prod.mk.injEq, Prod.mk.injEq]
        refine ⟨⟨rfl, by push_cast; ring⟩, rfl⟩
      · intro i hi
        rw [ihpres i (by omega), hbuf1, List.getElem?_set_ne (by omega)]
      · intro j hj1 hj2
        rcases eq_or_lt_of_le hj1 with hjeq | hjlt
        · have hpres := ihpres (buf.length - 1 - j) (by omega)
          have hget1 : buf1[buf.length - 1 - j]? = some (vrow.set C cnew) := by
            rw [hbuf1, ← hjeq, List.getElem?_set, if_pos rfl, if_pos (by omega)]
          have hgetD : buf'.getD (buf.length - 1 - j) [] = vrow.set C cnew := by
            rw [List.getD_eq_getElem?_getD, hpres, hget1, Option.getD_some]
          rw [hgetD]
          have hCv : C < (vrow.set C cnew).length := by rw [List.length_set, hvlen]; omega
          rw [List.getD_eq_getElem?_getD, List.getElem?_eq_getElem hCv, Option.getD_some,
            List.getElem_set_self (by rw [List.length_set, hvlen]; omega)]
          rw [hcnew, plot_at_decode _ hP256]
          exact lor_and_self _ _
        · have hcb := ihcell j (by omega) hj2
          rw [hlen1] at hcb
          exact hcb

end Suntime

namespace Suntime

/-- C7 (amended): whenever the two endpoints handed to `plot_line` lie
within the sub-pixel bounds of the buffer (`0 ≤ x ≤ 2*w - 1` for a row
width of `w`, `0 ≤ y ≤ 4*rows - 1` for `rows` buffer rows — in
`plot_times` terms, `rows = height + 1`), the rasterizer succeeds with no
out-of-range buffer access, and every merge call it makes, including all
intermediate points, is at a point within those same bounds.  (The
original claim quantified over every valid `plot_times` input; the
endpoint precondition added here does not follow from validity of the
samples, because the truncated `pt_height` can make an endpoint `y`
exceed `(height + 1) * 4 - 1`.) -/
theorem plot_line_in_bounds (f t : Int × Int) (buf : List (List Char)) (w : Nat)
    (hrows : ∀ row ∈ buf, row.length = w)
    (hfx : 0 ≤ f.1 ∧ f.1 ≤ 2 * (w : Int) - 1)
    (htx : 0 ≤ t.1 ∧ t.1 ≤ 2 * (w : Int) - 1)
    (hfy : 0 ≤ f.2 ∧ f.2 ≤ 4 * (buf.length : Int) - 1)
    (hty : 0 ≤ t.2 ∧ t.2 ≤ 4 * (buf.length : Int) - 1) :
    ∃ buf' calls, plot_line f t buf = some (buf', calls) ∧
      ∀ c ∈ calls, 0 ≤ c.1.1 ∧ c.1.1 ≤ 2 * (w : Int) - 1 ∧
        0 ≤ c.1.2 ∧ c.1.2 ≤ 4 * (buf.length : Int) - 1 := by
  obtain ⟨hfx1, hfx2⟩ := hfx
  obtain ⟨htx1, htx2⟩ := htx
  obtain ⟨hfy1, hfy2⟩ := hfy
  obtain ⟨hty1, hty2⟩ := hty
  by_cases hvert : f.1 = t.1
  · rcases lt_trichotomy f.2 t.2 with hdir | hdir | hdir
    · obtain ⟨buf', calls, hrun, _, _, hcalls⟩ :=
        plot_line_vert_up_bounds w f t hdir hfx1 hfx2 (line_fuel f t) f.2 buf []
          hty2 hrows hfy1 (by unfold line_fuel; omega)
      rw [List.nil_append] at hrun
      exact ⟨buf', calls, by rw [plot_line, if_pos hvert, hrun], hcalls⟩
    · refine ⟨buf, [], ?_, by simp⟩
      rw [plot_line, if_pos hvert,
        show line_fuel f t = (line_fuel f t - 1) + 1 by unfold line_fuel; omega]
      simp only [plot_line_vert]
      rw [if_neg (by omega)]
    · obtain ⟨buf', calls, hrun, _, _, hcalls⟩ :=
        plot_line_vert_down_bounds w f t hdir hfx1 hfx2 hty1 (line_fuel f t) f.2 buf []
          hfy2 hrows (le_refl f.2) (by unfold line_fuel; omega)
      rw [List.nil_append] at hrun
      exact ⟨buf', calls, by rw [plot_line, if_pos hvert, hrun], hcalls⟩
  · rcases lt_or_gt_of_ne hvert with hlt | hgt
    · obtain ⟨buf', calls, hrun, _, _, hcalls⟩ :=
        plot_line_walk_bounds w f t hlt hfx1 htx2 hfy1 hty1 (line_fuel f t) f.1 f.2 buf []
          hfy2 hty2 hrows (le_refl f.1) (by omega) hfy1 hfy2 (by unfold line_fuel; omega)
      rw [List.nil_append] at hrun
      refine ⟨buf', calls, ?_, hcalls⟩
      rw [plot_line, if_neg hvert]
      exact hrun
    · refine ⟨buf, [], ?_, by simp⟩
      rw [plot_line, if_neg hvert,
        show line_fuel f t = (line_fuel f t - 1) + 1 by unfold line_fuel; omega]
      simp only [plot_line_walk]
      rw [if_neg (by omega)]

theorem plot_line_in_bounds_witness :
    (∀ row ∈ [[' ', ' '], [' ', ' ']], row.length = 2) ∧
    (∃ buf' calls, plot_line (0, 0) (3, 7) [[' ', ' '], [' ', ' ']] = some (buf', calls) ∧
      ∀ c ∈ calls, 0 ≤ c.1.1 ∧ c.1.1 ≤ 2 * ((2 : Nat) : Int) - 1 ∧
        0 ≤ c.1.2 ∧ c.1.2 ≤ 4 * (([[' ', ' '], [' ', ' ']] : List (List Char)).length : Int) - 1) :=
  ⟨by decide, plot_line_in_bounds (0, 0) (3, 7) [[' ', ' '], [' ', ' ']] 2 (by decide)
    (by decide) (by decide) (by decide) (by decide)⟩

/-- C8: a vertical segment from sub-pixel row 0 to row `4*h - 1` at a
fixed sub-column `x` makes exactly one merge call per spanned character
row (rows `0, …, h-1`, at `y = 0, 4, …, 4*(h-1)`), each merged pattern
being the full nibble on the left (`15`) when `x` is even and on the
right (`240`) when `x` is odd, and afterwards every spanned character row
of that column has its sub-column nibble lit. -/
theorem vertical_line_coverage (x : Int) (h w : Nat) (buf : List (List Char))
    (hh : 1 ≤ h) (hx0 : 0 ≤ x) (hcol : (x.tdiv 2).toNat < w)
    (hR : h ≤ buf.length) (hrows : ∀ row ∈ buf, row.length = w) :
    ∃ buf',
      plot_line (x, 0) (x, 4 * (h : Int) - 1) buf =
        some (buf', (List.range h).map (fun (j : Nat) =>
          ((x, 4 * (j : Int)), if x.tmod 2 = 1 then 240 else 15))) ∧
      ∀ j : Nat, j < h →
        pattern_from_char ((buf'.getD (buf.length - 1 - j) []).getD (x.tdiv 2).toNat ' ')
            &&& (if x.tmod 2 = 1 then 240 else 15) = (if x.tmod 2 = 1 then 240 else 15) := by
  obtain ⟨buf', hrun, _, _, _, hcell⟩ :=
    plot_line_vert_aligned_trace x h w hx0 hh hcol
      (line_fuel (x, 0) (x, 4 * (h : Int) - 1)) 0 buf [] (by omega) hR hrows
      (by unfold line_fuel; omega)
  rw [show (4 * ((0 : Nat) : Int)) = (0 : Int) by norm_num, Nat.sub_zero,
    List.nil_append] at hrun
  refine ⟨buf', ?_, fun j hj => hcell j (by omega) hj⟩
  simp only [plot_line]
  rw [if_pos trivial, hrun]
  congr 1
  congr 1
  apply List.map_congr_left
  intro a _
  rw [Prod.mk.injEq, Prod.mk.injEq]
  exact ⟨⟨rfl, by omega⟩, rfl⟩

theorem vertical_line_coverage_witness :
    (1 : Nat) ≤ 2 ∧
    (∃ buf',
      plot_line (1, 0) (1, 4 * ((2 : Nat) : Int) - 1) [[' '], [' '], [' ']] =
        some (buf', (List.range 2).map (fun (j : Nat) =>
          (((1 : Int), 4 * (j : Int)), if (1 : Int).tmod 2 = 1 then 240 else 15))) ∧
      ∀ j : Nat, j < 2 →
        pattern_from_char ((buf'.getD ([[' '], [' '], [' ']].length - 1 - j) []).getD
            ((1 : Int).tdiv 2).toNat ' ') &&& (if (1 : Int).tmod 2 = 1 then 240 else 15) =
          (if (1 : Int).tmod 2 = 1 then 240 else 15)) :=
  ⟨by decide, vertical_line_coverage 1 2 1 [[' '], [' '], [' ']] (by decide) (by decide)
    (by decide) (by decide) (by decide)⟩

end Suntime

namespace Suntime

/-- C7, counterexample: a valid chart input (2 samples, `max > min`,
positive width and height) for which `plot_times` passes `plot_line` an
endpoint whose `y` exceeds `(height + 1) * 4 - 1`.  With width 10,
height 4 and samples 0ns and 31999996ns, `pt_height` truncates to
1 millisecond, the second endpoint is `(10, 31)` with `31 > 19`, and the
render in fact dies on an out-of-range buffer index (`none`). -/
theorem plot_times_point_out_of_bounds :
    ¬ (∀ s ∈ (plot_times_segments 10 4 [0, 31999996]).getD [],
        0 ≤ s.2.2 ∧ s.2.2 ≤ (4 + 1) * 4 - 1) ∧
    plot_times_segments 10 4 [0, 31999996] = some [((0, 0), (10, 31))] ∧
    plot_times "P" 10 4 [0, 31999996] = none := by
  refine ⟨by decide, rfl, rfl⟩

end Suntime
